import Mathlib

/-!
Shallow embedding of the task-list core of `src/app.js` (a React to-do
application) and proofs of its specification claims.

The embedding models JavaScript strings as Lean `String` (a list of
characters), `String.prototype.trim` as dropping whitespace characters from
both ends, `toLowerCase` as `Char.toLower` mapped over the characters, and
`String.prototype.includes` as list-infix containment.  Task lists are Lean
lists; all mutation helpers from the source are pure list functions.
-/

namespace Todo

/-- A task record as constructed in `addTask` in `src/app.js`:
`{ id, text, completed, createdAt }`. -/
structure Task where
  id : String
  text : String
  completed : Bool
  createdAt : Nat
deriving DecidableEq, Repr

/-- Model of JavaScript `String.prototype.trim` on the character list:
drop whitespace from the front, then from the back. -/
def trimChars (l : List Char) : List Char :=
  ((l.dropWhile Char.isWhitespace).reverse.dropWhile Char.isWhitespace).reverse

/-- Model of JavaScript `s.trim()`. -/
def jsTrim (s : String) : String :=
  String.mk (trimChars s.data)

/-- Model of JavaScript `s.toLowerCase()`. -/
def jsToLower (s : String) : String :=
  String.mk (s.data.map Char.toLower)

/-- Model of JavaScript `s.includes(sub)`: `sub` occurs contiguously in `s`. -/
def jsIncludes (s sub : String) : Bool :=
  decide (sub.data <:+: s.data)

/-- Model of `addTask` from `src/app.js` (lines 132-144): trim the input; if the
result is empty do nothing, otherwise prepend a new task carrying the fresh
id and the current time supplied by the environment. -/
def addTask (newId : String) (now : Nat) (text : String) (tasks : List Task) :
    List Task :=
  let val := jsTrim text
  if val = "" then tasks
  else { id := newId, text := val, completed := false, createdAt := now } :: tasks

/-- Model of `toggleTask` from `src/app.js` (lines 146-148). -/
def toggleTask (id : String) (tasks : List Task) : List Task :=
  tasks.map fun t => if t.id = id then { t with completed := !t.completed } else t

/-- Model of `deleteTask` from `src/app.js` (lines 150-152). -/
def deleteTask (id : String) (tasks : List Task) : List Task :=
  tasks.filter fun t => t.id != id

/-- Model of `clearCompleted` from `src/app.js` (lines 154-156). -/
def clearCompleted (tasks : List Task) : List Task :=
  tasks.filter fun t => !t.completed

/-- Model of `saveEdit` from `src/app.js` (lines 165-175): trim the pending edit
text; if empty, leave the list untouched (cancelled edit), otherwise
replace the text of every task whose id matches `editingId`. -/
def saveEdit (editingId : String) (editingText : String) (tasks : List Task) :
    List Task :=
  let val := jsTrim editingText
  if val = "" then tasks
  else tasks.map fun t => if t.id = editingId then { t with text := val } else t

/-- The three status-filter states offered by the UI (`all | active | done`). -/
inductive Filter where
  | all
  | active
  | done
deriving DecidableEq, Repr

/-- The status predicate of the `filtered` memo in `src/app.js` (line 127):
`filter === "all" ? true : filter === "active" ? !t.completed : t.completed`. -/
def statusPass (f : Filter) (t : Task) : Bool :=
  match f with
  | .all => true
  | .active => !t.completed
  | .done => t.completed

/-- The search predicate of the `filtered` memo in `src/app.js` (line 129):
`t.text.toLowerCase().includes(query.trim().toLowerCase())`. -/
def searchPass (q : String) (t : Task) : Bool :=
  jsIncludes (jsToLower t.text) (jsToLower (jsTrim q))

/-- The `filtered` memo in `src/app.js` (lines 124-130): status filter then
search filter. -/
def project (f : Filter) (q : String) (tasks : List Task) : List Task :=
  (tasks.filter (statusPass f)).filter (searchPass q)

/-- Modelled from the spec (section 6, persistence format): JSON values as
produced by the platform `JSON.parse` / consumed by `JSON.stringify`,
which are external builtins not part of this repository. -/
inductive JVal where
  | null
  | bool (b : Bool)
  | num (n : Nat)
  | str (s : String)
  | arr (elems : List JVal)
  | obj (fields : List (String × JVal))

/-- Modelled from the spec: the raw content of the storage key as seen by
`useLocalStorage`.  `absent` covers a missing (or falsy empty) raw string,
`malformed` a raw string on which `JSON.parse` throws, and `wellFormed j`
a raw string that `JSON.parse` turns into the JSON value `j` (for a value
written by `JSON.stringify(v)` the platform guarantees `j = v`). -/
inductive Raw where
  | absent
  | malformed
  | wellFormed (j : JVal)

/-- The state initialiser of `useLocalStorage` in `src/app.js` (lines 12-19)
at the call site `useLocalStorage("todoapp-v1", [])`:
`raw ? JSON.parse(raw) : initialValue` inside `try`, with the `catch`
returning `initialValue`.  The parsed value is used unvalidated. -/
def load (raw : Raw) : JVal :=
  match raw with
  | .absent => JVal.arr []
  | .malformed => JVal.arr []
  | .wellFormed j => j

/-- Serialization of one task, following the persistence format of the spec
(section 6): `{id: string, text: string, completed: bool, createdAt: number}`. -/
def encodeTask (t : Task) : JVal :=
  JVal.obj [("id", JVal.str t.id), ("text", JVal.str t.text),
    ("completed", JVal.bool t.completed), ("createdAt", JVal.num t.createdAt)]

/-- Serialization of the whole list (the array written by `JSON.stringify`). -/
def encodeTasks (tasks : List Task) : JVal :=
  JVal.arr (tasks.map encodeTask)

/-- Modelled from the spec: reading one task record back from a JSON value;
the source trusts the stored shape and has no decoder of its own. -/
def decodeTask : JVal → Option Task
  | JVal.obj [("id", JVal.str i), ("text", JVal.str s),
      ("completed", JVal.bool b), ("createdAt", JVal.num n)] =>
    some { id := i, text := s, completed := b, createdAt := n }
  | _ => none

/-- Decoding a list of JSON values as task records, failing if any element
fails. -/
def decodeTaskList : List JVal → Option (List Task)
  | [] => some []
  | j :: js =>
    match decodeTask j, decodeTaskList js with
    | some t, some ts => some (t :: ts)
    | _, _ => none

/-- Modelled from the spec: parsing a JSON value as a task array. -/
def decodeTasks : JVal → Option (List Task)
  | JVal.arr js => decodeTaskList js
  | _ => none

/-- The store mutations reachable from the UI, used to state the list
invariant over arbitrary operation sequences. -/
inductive Op where
  | add (id : String) (now : Nat) (text : String)
  | toggle (id : String)
  | edit (id : String) (text : String)
  | delete (id : String)
  | clear

/-- One UI operation applied to the task list. -/
def applyOp (tasks : List Task) : Op → List Task
  | .add i n s => addTask i n s tasks
  | .toggle i => toggleTask i tasks
  | .edit i s => saveEdit i s tasks
  | .delete i => deleteTask i tasks
  | .clear => clearCompleted tasks

/-- Run a sequence of operations from left to right. -/
def runOps (tasks : List Task) : List Op → List Task
  | [] => tasks
  | op :: ops => runOps (applyOp tasks op) ops

/-- Freshness of the id supplied to a single operation: an `add` must carry
an id not already present (the id generator of `src/app.js` line 136). -/
def freshFor (tasks : List Task) : Op → Bool
  | .add i _ _ => decide (i ∉ tasks.map Task.id)
  | _ => true

/-- Every `add` along the run uses an id fresh at that point. -/
def freshIds : List Task → List Op → Bool
  | _, [] => true
  | tasks, op :: ops => freshFor tasks op && freshIds (applyOp tasks op) ops

/-- A fixed sample task, used to instantiate witnesses; it is the first task
of the worked example in the spec (section 8). -/
def sampleTask : Task :=
  { id := "1", text := "Buy milk", completed := false, createdAt := 0 }

end Todo

namespace Todo

/-! ### Helper lemmas -/

theorem map_eq_self_of {α : Type} {f : α → α} {l : List α}
    (h : ∀ a ∈ l, f a = a) : l.map f = l := by
  induction l with
  | nil => rfl
  | cons a l ih =>
    simp only [List.map_cons, h a (List.mem_cons_self a l)]
    exact congrArg (a :: ·) (ih fun b hb => h b (List.mem_cons_of_mem a hb))

theorem trimChars_idem (l : List Char) : trimChars (trimChars l) = trimChars l := by
  have repr : ∀ m : List Char,
      trimChars m = List.rdropWhile Char.isWhitespace (m.dropWhile Char.isWhitespace) :=
    fun _ => rfl
  have key : (List.rdropWhile Char.isWhitespace
      (l.dropWhile Char.isWhitespace)).dropWhile Char.isWhitespace =
      List.rdropWhile Char.isWhitespace (l.dropWhile Char.isWhitespace) := by
    rw [List.dropWhile_eq_self_iff]
    intro hl
    have hpre : List.rdropWhile Char.isWhitespace (l.dropWhile Char.isWhitespace) <+:
        l.dropWhile Char.isWhitespace := List.rdropWhile_prefix _ _
    have hlen : 0 < (l.dropWhile Char.isWhitespace).length :=
      lt_of_lt_of_le hl hpre.length_le
    have hne := List.dropWhile_get_zero_not Char.isWhitespace l hlen
    rw [hpre.get_eq hl]
    exact hne
  rw [repr l, repr, key, List.rdropWhile_idempotent]

theorem jsTrim_idem (s : String) : jsTrim (jsTrim s) = jsTrim s :=
  congrArg String.mk (trimChars_idem s.data)

end Todo

namespace Todo

/-! ### Claim theorems -/

/-- Claim C1: if `s` trims to the empty string, `addTask` leaves the list
unchanged; otherwise it produces the list whose first element is a new task
with text `jsTrim s`, `completed = false` and the supplied fresh id, and
whose tail is exactly the old list (so the length grows by one). -/
theorem addTask_spec (i : String) (n : Nat) (s : String) (L : List Task) :
    (jsTrim s = "" → addTask i n s L = L) ∧
    (jsTrim s ≠ "" →
      addTask i n s L =
        { id := i, text := jsTrim s, completed := false, createdAt := n } :: L ∧
      (addTask i n s L).length = L.length + 1) := by
  constructor
  · intro h
    simp [addTask, h]
  · intro h
    simp [addTask, h]

theorem addTask_spec_witness :
    addTask "a1" 5 "  hi  " [] =
      [{ id := "a1", text := "hi", completed := false, createdAt := 5 }] ∧
    (addTask "a1" 5 "  hi  " []).length = 1 :=
  (addTask_spec "a1" 5 "  hi  " []).2 (by decide)

/-- Claim C3: after a successful persistence write of `L` the stored raw
value parses back to the very JSON value that was written, and decoding that
value yields exactly `L`: serialization followed by deserialization is the
identity on task lists. -/
theorem persist_round_trip (L : List Task) :
    load (Raw.wellFormed (encodeTasks L)) = encodeTasks L ∧
    decodeTasks (encodeTasks L) = some L := by
  refine ⟨rfl, ?_⟩
  show decodeTaskList (L.map encodeTask) = some L
  induction L with
  | nil => rfl
  | cons t ts ih => simp [decodeTaskList, decodeTask, encodeTask, ih]

/-- Claim C6: toggling the same id twice restores the original list, so in
particular the completed flag of the toggled task returns to its original
value. -/
theorem toggleTask_involution (L : List Task) (i : String) :
    toggleTask i (toggleTask i L) = L := by
  unfold toggleTask
  rw [List.map_map]
  apply map_eq_self_of
  intro t _
  obtain ⟨tid, ttext, tc, tca⟩ := t
  by_cases h : tid = i
  · subst h
    simp [Function.comp]
  · simp [Function.comp, h]

/-- Claim C7: `clearCompleted` keeps exactly the tasks whose completed flag
is false, the result is a sublist of the input (relative order preserved),
and applying it twice equals applying it once. -/
theorem clearCompleted_spec (L : List Task) :
    (∀ t, t ∈ clearCompleted L ↔ t ∈ L ∧ t.completed = false) ∧
    List.Sublist (clearCompleted L) L ∧
    clearCompleted (clearCompleted L) = clearCompleted L := by
  refine ⟨fun t => ?_, List.filter_sublist _, ?_⟩
  · simp [clearCompleted, List.mem_filter]
  · simp [clearCompleted, List.filter_filter]

/-- Claim C9 counterexample: the stored value `42` is well-formed JSON that
fails to parse as a task array, yet `load` returns it unchanged instead of
substituting the empty list: wrong-shape data is not recovered. -/
theorem load_shape_counterexample :
    decodeTasks (JVal.num 42) = none ∧
    load (Raw.wellFormed (JVal.num 42)) ≠ encodeTasks [] := by
  refine ⟨rfl, fun h => ?_⟩
  simp [load, encodeTasks] at h

/-- Claim C9 (amended): `load` is total; an absent raw value or one on which
JSON parsing throws yields the empty list, and any well-formed JSON value is
returned as-is, with no validation of its shape. -/
theorem load_total :
    load Raw.absent = encodeTasks [] ∧
    load Raw.malformed = encodeTasks [] ∧
    ∀ j, load (Raw.wellFormed j) = j :=
  ⟨rfl, rfl, fun _ => rfl⟩

/-- Claim C10: the search query is trimmed before matching, so projecting
with `q` and with `jsTrim q` produce the same list for every filter state. -/
theorem project_trim_query (L : List Task) (f : Filter) (q : String) :
    project f q L = project f (jsTrim q) L := by
  simp [project, searchPass, jsTrim_idem]

end Todo

namespace Todo

/-- Claim C2: a task is in the projection exactly when it is in the input
list, passes the status filter (`active` keeps uncompleted, `done` keeps
completed, `all` keeps everything), and passes the case-insensitive
substring search; a query that trims to the empty string passes every task;
and the projection is a sublist of the input, so relative order is
preserved. -/
theorem project_spec (L : List Task) (f : Filter) (q : String) :
    (∀ t, t ∈ project f q L ↔
      t ∈ L ∧ statusPass f t = true ∧ searchPass q t = true) ∧
    (jsTrim q = "" → ∀ t, searchPass q t = true) ∧
    List.Sublist (project f q L) L := by
  refine ⟨fun t => ?_, fun h t => ?_, ?_⟩
  · simp only [project, List.mem_filter, and_assoc]
  · simp only [searchPass, h, jsIncludes]
    exact decide_eq_true List.nil_infix
  · exact (List.filter_sublist _).trans (List.filter_sublist _)

theorem project_spec_witness :
    searchPass "   " sampleTask = true :=
  (project_spec [sampleTask] Filter.all "   ").2.1 (by decide) sampleTask

/-- Claim C5: if the replacement text trims to the empty string the edit is
discarded and the list is unchanged; otherwise exactly the task whose id
matches gets its text replaced by the trimmed string, all its other fields
and every other task and the order being untouched. -/
theorem saveEdit_spec (L : List Task) (i s : String) (_hmem : i ∈ L.map Task.id) :
    (jsTrim s = "" → saveEdit i s L = L) ∧
    (jsTrim s ≠ "" →
      saveEdit i s L =
        L.map fun t => if t.id = i then { t with text := jsTrim s } else t) := by
  constructor
  · intro h
    simp [saveEdit, h]
  · intro h
    simp [saveEdit, h]

theorem saveEdit_spec_witness :
    saveEdit "1" "   " [sampleTask] = [sampleTask] :=
  (saveEdit_spec [sampleTask] "1" "   " (by decide)).1 (by decide)

/-- Claim C8: deleting the same id twice equals deleting it once, and for an
id absent from the list, delete, toggle, and edit all leave the list
unchanged. -/
theorem deleteTask_spec (L : List Task) (i s : String) :
    deleteTask i (deleteTask i L) = deleteTask i L ∧
    (i ∉ L.map Task.id →
      deleteTask i L = L ∧ toggleTask i L = L ∧ saveEdit i s L = L) := by
  constructor
  · simp [deleteTask, List.filter_filter]
  · intro h
    have hid : ∀ t ∈ L, t.id ≠ i := by
      intro t ht heq
      exact h (heq ▸ List.mem_map_of_mem Task.id ht)
    refine ⟨?_, ?_, ?_⟩
    · apply List.filter_eq_self.mpr
      intro t ht
      exact bne_iff_ne.mpr (hid t ht)
    · apply map_eq_self_of
      intro t ht
      rw [if_neg (hid t ht)]
    · by_cases hv : jsTrim s = ""
      · simp [saveEdit, hv]
      · simp only [saveEdit, hv, if_false]
        apply map_eq_self_of
        intro t ht
        rw [if_neg (hid t ht)]

theorem deleteTask_spec_witness :
    deleteTask "z" [sampleTask] = [sampleTask] ∧
    toggleTask "z" [sampleTask] = [sampleTask] ∧
    saveEdit "z" "x" [sampleTask] = [sampleTask] :=
  (deleteTask_spec [sampleTask] "z" "x").2 (by decide)

end Todo

namespace Todo

theorem goodText_applyOp {L : List Task} (op : Op)
    (hL : ∀ t ∈ L, t.text ≠ "" ∧ jsTrim t.text ≠ "") :
    ∀ t ∈ applyOp L op, t.text ≠ "" ∧ jsTrim t.text ≠ "" := by
  cases op with
  | add i n s =>
    by_cases hv : jsTrim s = ""
    · simpa [applyOp, addTask, hv] using hL
    · intro t ht
      simp only [applyOp, addTask, hv, if_false] at ht
      rcases List.mem_cons.mp ht with h | h
      · rw [h]
        refine ⟨hv, ?_⟩
        show jsTrim (jsTrim s) ≠ ""
        rw [jsTrim_idem]
        exact hv
      · exact hL t h
  | toggle i =>
    intro t ht
    simp only [applyOp, toggleTask] at ht
    rcases List.mem_map.mp ht with ⟨u, hu, hut⟩
    have htext : t.text = u.text := by
      rw [← hut]
      by_cases h : u.id = i
      · simp [h]
      · simp [h]
    rw [htext]
    exact hL u hu
  | edit i s =>
    by_cases hv : jsTrim s = ""
    · simpa [applyOp, saveEdit, hv] using hL
    · intro t ht
      simp only [applyOp, saveEdit, hv, if_false] at ht
      rcases List.mem_map.mp ht with ⟨u, hu, hut⟩
      by_cases h : u.id = i
      · rw [← hut, if_pos h]
        constructor
        · show jsTrim s ≠ ""
          exact hv
        · show jsTrim (jsTrim s) ≠ ""
          rw [jsTrim_idem]
          exact hv
      · rw [← hut, if_neg h]
        exact hL u hu
  | delete i =>
    intro t ht
    simp only [applyOp, deleteTask] at ht
    exact hL t (List.mem_filter.mp ht).1
  | clear =>
    intro t ht
    simp only [applyOp, clearCompleted] at ht
    exact hL t (List.mem_filter.mp ht).1

theorem nodupIds_applyOp {L : List Task} (op : Op) (hf : freshFor L op = true)
    (hL : (L.map Task.id).Nodup) : ((applyOp L op).map Task.id).Nodup := by
  cases op with
  | add i n s =>
    by_cases hv : jsTrim s = ""
    · simpa [applyOp, addTask, hv] using hL
    · have hi : i ∉ L.map Task.id := of_decide_eq_true hf
      simp only [applyOp, addTask, hv, if_false, List.map_cons]
      exact List.nodup_cons.mpr ⟨hi, hL⟩
  | toggle i =>
    have hids : (toggleTask i L).map Task.id = L.map Task.id := by
      unfold toggleTask
      rw [List.map_map]
      apply List.map_congr_left
      intro u _
      by_cases h : u.id = i
      · simp [Function.comp, h]
      · simp [Function.comp, h]
    simp only [applyOp]
    rw [hids]
    exact hL
  | edit i s =>
    by_cases hv : jsTrim s = ""
    · simpa [applyOp, saveEdit, hv] using hL
    · have hids : (saveEdit i s L).map Task.id = L.map Task.id := by
        simp only [saveEdit, hv, if_false]
        rw [List.map_map]
        apply List.map_congr_left
        intro u _
        by_cases h : u.id = i
        · simp [Function.comp, h]
        · simp [Function.comp, h]
      simp only [applyOp]
      rw [hids]
      exact hL
  | delete i =>
    simp only [applyOp, deleteTask]
    exact hL.sublist ((List.filter_sublist L).map Task.id)
  | clear =>
    simp only [applyOp, clearCompleted]
    exact hL.sublist ((List.filter_sublist L).map Task.id)

theorem inv_runOps (ops : List Op) : ∀ L : List Task, freshIds L ops = true →
    ((∀ t ∈ L, t.text ≠ "" ∧ jsTrim t.text ≠ "") ∧ (L.map Task.id).Nodup) →
    (∀ t ∈ runOps L ops, t.text ≠ "" ∧ jsTrim t.text ≠ "") ∧
      ((runOps L ops).map Task.id).Nodup := by
  induction ops with
  | nil => exact fun L _ h => h
  | cons op ops ih =>
    intro L hf h
    have hsplit := Bool.and_eq_true_iff.mp hf
    exact ih (applyOp L op) hsplit.2
      ⟨goodText_applyOp op h.1, nodupIds_applyOp op hsplit.1 h.2⟩

/-- Claim C4: starting from the empty list, after any finite sequence of
add, toggle, edit, delete, and clear-completed operations in which every
add uses a fresh id, every task text is non-empty and not whitespace-only,
and no two tasks share an id. -/
theorem invariant_runOps (ops : List Op) (h : freshIds [] ops = true) :
    (∀ t ∈ runOps [] ops, t.text ≠ "" ∧ jsTrim t.text ≠ "") ∧
    ((runOps [] ops).map Task.id).Nodup :=
  inv_runOps ops [] h ⟨fun t ht => absurd ht (List.not_mem_nil t), by simp⟩

theorem invariant_runOps_witness :
    ((runOps [] [Op.add "a" 0 " x ", Op.add "b" 1 "y", Op.toggle "a",
      Op.edit "b" " z ", Op.delete "a", Op.clear]).map Task.id).Nodup :=
  (invariant_runOps [Op.add "a" 0 " x ", Op.add "b" 1 "y", Op.toggle "a",
    Op.edit "b" " z ", Op.delete "a", Op.clear] (by decide)).2

end Todo
